import Mathlib

/-!
Shallow embedding of the request-handling core of the gateway server
(`src/api/index.ts`): round-robin credential pool (`getModel`), markdown
fence normalizer (`formatResponse`), error classification and the bounded
retry loop of the `GET /` handler, plus the endpoint's parameter checks.

Strings are modelled as Lean `String`/`List Char`; the JavaScript regex
`/3backticks[\w]*\n?([\s\S]*?)3backticks/` is compiled into an explicit
backtracking matcher; machine state (the shared key cursor) is passed
explicitly.
-/

set_option autoImplicit false

namespace Gateway

/-- The backtick character (codepoint 96). -/
def tick : Char := Char.ofNat 96

/-- The apostrophe character (codepoint 39). -/
def quoteChar : Char := Char.ofNat 39

/-- Does the list start with three consecutive backticks? -/
def startsWithTicks (l : List Char) : Bool :=
  match l with
  | a :: b :: c :: _ => a == tick && b == tick && c == tick
  | _ => false

/-- Decidable occurrence of three consecutive backticks anywhere in the list. -/
def hasTriple (l : List Char) : Bool :=
  match l with
  | [] => false
  | c :: t => startsWithTicks (c :: t) || hasTriple t

/-- JavaScript `\w`: ASCII letters, digits and underscore. -/
def isWordChar (c : Char) : Bool :=
  c.isAlphanum || c == '_'

/-- Whitespace stripped by JavaScript `String.prototype.trim` (WhiteSpace
and LineTerminator code points of the ECMAScript spec). -/
def isJSWhitespace (c : Char) : Bool :=
  [9, 10, 11, 12, 13, 32, 160, 5760, 8192, 8193, 8194, 8195, 8196, 8197,
   8198, 8199, 8200, 8201, 8202, 8232, 8233, 8239, 8287, 12288, 65279].contains c.toNat

/-- JavaScript `.trim()`: drop whitespace from both ends. -/
def jsTrim (l : List Char) : List Char :=
  ((l.dropWhile isJSWhitespace).reverse.dropWhile isJSWhitespace).reverse

/-- JavaScript `rawText.replace(regex of three backticks, empty, global)`: remove every
(non-overlapping, left-to-right) occurrence of three consecutive backticks. -/
def stripTicks : List Char → List Char
  | [] => []
  | [c] => [c]
  | [c, d] => [c, d]
  | c :: d :: e :: t =>
    if c == tick && d == tick && e == tick then stripTicks t
    else c :: stripTicks (d :: e :: t)

/-- Lazy-interior step of the fence regex: the capture `([\s\S]*?)` followed
by the closing backtick triple.  Returns the text before the first triple,
or `none` when no triple occurs. -/
def splitAtTicks (l : List Char) : Option (List Char) :=
  match l with
  | [] => none
  | c :: t =>
    if startsWithTicks (c :: t) then some []
    else (splitAtTicks t).map (fun r => c :: r)

/-- The `\n?` step of the fence regex (greedy: with the newline first),
followed by the lazy capture and closing triple. -/
def tailMatch (l : List Char) : Option (List Char) :=
  match l with
  | [] => splitAtTicks []
  | c :: t =>
    if c == '\n' then
      match splitAtTicks t with
      | some cap => some cap
      | none => splitAtTicks (c :: t)
    else splitAtTicks (c :: t)

/-- The `[\w]*` step of the fence regex (greedy with backtracking), then
the rest of the pattern. -/
def wordMatch (l : List Char) : Option (List Char) :=
  match l with
  | [] => tailMatch []
  | c :: t =>
    if isWordChar c then
      match wordMatch t with
      | some cap => some cap
      | none => tailMatch (c :: t)
    else tailMatch (c :: t)

/-- `rawText.match(codeBlockRegex)`, restricted to the capture group: try
each start position left to right; at a position opening with a backtick
triple, run the rest of the pattern with backtracking. -/
def findFence (l : List Char) : Option (List Char) :=
  match l with
  | [] => none
  | c :: t =>
    if startsWithTicks (c :: t) then
      match wordMatch (t.drop 2) with
      | some cap => some cap
      | none => findFence t
    else findFence t

/-- The JSON shape `{ code: string }` returned on success. -/
structure CodeResponse where
  code : String
deriving DecidableEq, Repr

/-- `formatResponse` of `src/api/index.ts`: extract the first fenced code
block (the regex match must exist and its capture must be a non-empty,
hence truthy, string) and trim it; otherwise strip every backtick triple
and trim. -/
def formatResponse (rawText : String) : CodeResponse :=
  match findFence rawText.toList with
  | some cap =>
    if cap.isEmpty then { code := String.mk (jsTrim (stripTicks rawText.toList)) }
    else { code := String.mk (jsTrim cap) }
  | none => { code := String.mk (jsTrim (stripTicks rawText.toList)) }

/-- JavaScript `hay.includes(pat)`. -/
def hasSub (hay pat : List Char) : Bool :=
  match hay with
  | [] => pat.isEmpty
  | c :: t => pat.isPrefixOf (c :: t) || hasSub t pat

/-- JavaScript `s.includes(pat)` on `String`. -/
def includesStr (s pat : String) : Bool :=
  hasSub s.toList pat.toList

/-- JavaScript `s.toLowerCase()`, modelled characterwise with
`Char.toLower` (the claims only exercise ASCII text). -/
def jsToLower (s : String) : String :=
  String.mk (s.toList.map Char.toLower)

/-- Failure classes of one attempt (spec §3, `AttemptOutcome`). -/
inductive ErrClass where
  | quota
  | overloaded
  | fatal
deriving DecidableEq, Repr

/-- The error-message classification of the catch block of the `GET /`
handler: `429`/case-insensitive `quota` first, then `503`/`Overloaded`,
anything else is fatal. -/
def classify (msg : String) : ErrClass :=
  let isQuotaError := includesStr msg "429" || includesStr (jsToLower msg) "quota"
  let isServiceOverloaded := includesStr msg "503" || includesStr msg "Overloaded"
  if isQuotaError then .quota
  else if isServiceOverloaded then .overloaded
  else .fatal

/-- `getModel`: return the key index at the shared cursor and advance the
cursor by one modulo the pool size. -/
def getModelStep (n cursor : Nat) : Nat × Nat :=
  (cursor, (cursor + 1) % n)

/-- Result of one `chatSession.sendMessage` call. -/
inductive BackendResult where
  | ok (text : String)
  | err (msg : String)

/-- The message carried by a failed backend result. -/
def errMsg : BackendResult → String
  | .ok _ => ""
  | .err m => m

/-- Is the backend result a retryable failure (quota or overload)? -/
def retryableResult (r : BackendResult) : Bool :=
  match r with
  | .ok _ => false
  | .err m =>
    match classify m with
    | .fatal => false
    | _ => true

/-- Terminal outcome of the retry loop. -/
inductive Outcome where
  | success (resp : CodeResponse)
  | fatal (msg : String)
  | exhausted (lastMsg : String)
deriving DecidableEq, Repr

/-- Observable result of one orchestrator run: outcome, the key index used
by each `sendMessage` attempt in order, and the cursor after the run. -/
structure RunResult where
  outcome : Outcome
  attemptKeys : List Nat
  finalCursor : Nat
deriving DecidableEq, Repr

/-- The `for (attempt = 0; attempt < MAX_RETRIES; attempt++)` loop of the
`GET /` handler.  `backend attempt key` is the result of sending the query
on the session bound to `key` at that attempt; a retryable failure
re-creates the session (rotating the cursor via `getModelStep`); a fatal
failure is thrown; running out of fuel throws the exhaustion error built
from the last recorded failure. -/
def orchLoop (n : Nat) (backend : Nat → Nat → BackendResult) :
    Nat → Nat → Nat → Nat → Option String → List Nat → RunResult
  | 0, _attempt, _sessionKey, cursor, lastErr, acc =>
    { outcome := .exhausted (lastErr.getD "Unknown"),
      attemptKeys := acc.reverse, finalCursor := cursor }
  | fuel + 1, attempt, sessionKey, cursor, _lastErr, acc =>
    match backend attempt sessionKey with
    | .ok text =>
      { outcome := .success (formatResponse text),
        attemptKeys := (sessionKey :: acc).reverse, finalCursor := cursor }
    | .err msg =>
      match classify msg with
      | .fatal =>
        { outcome := .fatal msg,
          attemptKeys := (sessionKey :: acc).reverse, finalCursor := cursor }
      | _ =>
        let step := getModelStep n cursor
        orchLoop n backend fuel (attempt + 1) step.1 step.2 (some msg) (sessionKey :: acc)

/-- One full orchestrator run: create the initial session (consuming one
credential), then run the loop with `MAX_RETRIES = poolSize * 2`. -/
def handleQuery (n : Nat) (backend : Nat → Nat → BackendResult) (cursor0 : Nat) : RunResult :=
  let step := getModelStep n cursor0
  orchLoop n backend (n * 2) 0 step.1 step.2 none []

/-- The literal 400 message of the handler. -/
def missingQueryMsg : String :=
  "Missing " ++ String.mk [quoteChar] ++ "query" ++ String.mk [quoteChar] ++ " parameter."

/-- JSON replies of the `GET /` endpoint. -/
inductive HttpReply where
  | json200 (body : CodeResponse)
  | json400 (error : Bool) (message : String)
  | json500 (error : Bool) (message : String) (details : Option String)
deriving DecidableEq, Repr

/-- The `GET /` handler: falsy-query check, empty-pool check, then the
orchestrator; outcomes are mapped to the JSON envelopes of the endpoint.
Returns the reply together with the cursor after the request. -/
def handleRequest (n : Nat) (backend : Nat → Nat → BackendResult) (cursor : Nat)
    (query : Option String) : HttpReply × Nat :=
  let q := query.getD ""
  if q = "" then
    (.json400 true missingQueryMsg, cursor)
  else if n = 0 then
    (.json500 true "Server config error: No API keys." none, cursor)
  else
    let r := handleQuery n backend cursor
    match r.outcome with
    | .success resp => (.json200 resp, r.finalCursor)
    | .fatal m => (.json500 true "Internal Server Error" (some m), r.finalCursor)
    | .exhausted lastMsg =>
      (.json500 true "Internal Server Error"
        (some ("Failed after " ++ toString (n * 2) ++ " attempts. Last error: " ++ lastMsg)),
       r.finalCursor)

/-- The key indices handed out by `k` consecutive `getModel` calls starting
from cursor `c`. -/
def nextKeys (n : Nat) : Nat → Nat → List Nat
  | _c, 0 => []
  | c, k + 1 =>
    let step := getModelStep n c
    step.1 :: nextKeys n step.2 k

/-- Three consecutive backticks as a list. -/
def tks : List Char := [tick, tick, tick]

/-- The message the loop has recorded last when it runs out of fuel:
for positive fuel, the failure of the final attempt. -/
def lastRetryMsg (backend : Nat → Nat → BackendResult) (attempt key n : Nat)
    (lastErr : Option String) : Nat → String
  | 0 => lastErr.getD "Unknown"
  | f + 1 => errMsg (backend (attempt + f) ((key + f) % n))

/-- Case-insensitive substring containment, as the claim words it. -/
def containsCI (s pat : String) : Bool :=
  includesStr (jsToLower s) (jsToLower pat)

/-- The classification rule exactly as the specification sentence states
it (429 or case-insensitive quota, then 503 or Overloaded, else fatal),
for comparison with the code's `classify`. -/
def specClassify (msg : String) : ErrClass :=
  if includesStr msg "429" || containsCI msg "quota" then .quota
  else if includesStr msg "503" || includesStr msg "Overloaded" then .overloaded
  else .fatal

/-- Modelled from the claim wording of the normalizer: whenever the fenced
block regex matches, take the trimmed interior of the first block — with
no non-emptiness requirement on the capture; otherwise strip every
backtick triple and trim. -/
def claimedNormalize (rawText : String) : CodeResponse :=
  match findFence rawText.toList with
  | some cap => { code := String.mk (jsTrim cap) }
  | none => { code := String.mk (jsTrim (stripTicks rawText.toList)) }

/-- C4: every backend failure message is classified as QuotaExceeded when
it contains "429" or case-insensitively contains "quota"; otherwise as
ServiceOverloaded when it contains "503" or "Overloaded"; otherwise as a
FatalFailure. -/
theorem classify_matches_spec : ∀ msg : String, classify msg = specClassify msg := by
  intro msg
  have h : jsToLower "quota" = "quota" := by decide
  simp only [classify, specClassify, containsCI, h]

/-- C7: a request whose query parameter is absent or empty is answered
with the literal 400 reply, the cursor is left unchanged and the backend
is never consulted (the reply does not depend on it). -/
theorem missing_query_rejected (n c : Nat) (backend : Nat → Nat → BackendResult)
    (query : Option String) (hq : query = none ∨ query = some "") :
    handleRequest n backend c query = (.json400 true missingQueryMsg, c) := by
  rcases hq with h | h <;> subst h <;> rfl

/-- Witness for `missing_query_rejected` at a concrete request. -/
theorem missing_query_rejected_witness :
    ((none : Option String) = none ∨ (none : Option String) = some "") ∧
      handleRequest 3 (fun _ _ => .err "x") 5 none = (.json400 true missingQueryMsg, 5) :=
  ⟨Or.inl rfl, missing_query_rejected 3 5 (fun _ _ => .err "x") none (Or.inl rfl)⟩

/-- The retry loop keeps the shared cursor inside the pool. -/
theorem orchLoop_cursor_lt (n : Nat) (backend : Nat → Nat → BackendResult) (hn : 0 < n) :
    ∀ fuel attempt key cursor lastErr acc, cursor < n →
      (orchLoop n backend fuel attempt key cursor lastErr acc).finalCursor < n := by
  intro fuel
  induction fuel with
  | zero =>
    intro attempt key cursor lastErr acc h
    simpa [orchLoop] using h
  | succ f ih =>
    intro attempt key cursor lastErr acc h
    cases hb : backend attempt key with
    | ok text => simp [orchLoop, hb, h]
    | err msg =>
      cases hcl : classify msg with
      | fatal => simp [orchLoop, hb, hcl, h]
      | quota =>
        simp only [orchLoop, hb, hcl, getModelStep]
        exact ih _ _ _ _ _ (Nat.mod_lt _ hn)
      | overloaded =>
        simp only [orchLoop, hb, hcl, getModelStep]
        exact ih _ _ _ _ _ (Nat.mod_lt _ hn)

/-- C9: for a non-empty pool the shared cursor is always a valid index:
`getModel` returns the current cursor and advances it by exactly one
modulo the pool size, the advanced cursor is again a valid index, and
every orchestrator run started at a valid cursor ends at a valid
cursor. -/
theorem pool_cursor_invariant (n c : Nat) (backend : Nat → Nat → BackendResult)
    (hn : 0 < n) (hc : c < n) :
    (getModelStep n c).1 = c ∧
      (getModelStep n c).2 = (c + 1) % n ∧
      (getModelStep n c).2 < n ∧
      ∀ fuel attempt key lastErr acc,
        (orchLoop n backend fuel attempt key c lastErr acc).finalCursor < n :=
  ⟨rfl, rfl, Nat.mod_lt _ hn,
    fun fuel attempt key lastErr acc => orchLoop_cursor_lt n backend hn fuel attempt key c lastErr acc hc⟩

/-- Witness for `pool_cursor_invariant` at a concrete pool and cursor. -/
theorem pool_cursor_invariant_witness :
    (getModelStep 2 1).1 = 1 ∧
      (getModelStep 2 1).2 = (1 + 1) % 2 ∧
      (getModelStep 2 1).2 < 2 ∧
      (orchLoop 2 (fun _ _ => .err "429") 4 0 1 1 none []).finalCursor < 2 :=
  have h := pool_cursor_invariant 2 1 (fun _ _ => .err "429") (by decide) (by decide)
  ⟨h.1, h.2.1, h.2.2.1, h.2.2.2 4 0 1 none []⟩

/-- `nextKeys` hands out the cursor values `c, c+1, ...` reduced modulo
the pool size. -/
theorem nextKeys_eq_map (n : Nat) :
    ∀ k c, c < n → nextKeys n c k = (List.range k).map (fun i => (c + i) % n) := by
  intro k
  induction k with
  | zero => intro c _; simp [nextKeys]
  | succ k ih =>
    intro c hc
    have hstep : (c + 1) % n < n := Nat.mod_lt _ (Nat.lt_of_le_of_lt (Nat.zero_le c) hc)
    rw [List.range_succ_eq_map]
    simp only [nextKeys, getModelStep, List.map_cons, List.map_map]
    refine congrArg₂ (· :: ·) ?_ ?_
    · exact (Nat.mod_eq_of_lt (by simpa using hc)).symm
    · rw [ih ((c + 1) % n) hstep]
      refine List.map_congr_left ?_
      intro a _
      simp only [Function.comp]
      rw [Nat.mod_add_mod]
      congr 1
      omega

/-- The cursor-offset view of round-robin is a rotation of the index list. -/
theorem map_mod_range_eq_rotate (n c : Nat) :
    (List.range n).map (fun i => (c + i) % n) = (List.range n).rotate c := by
  apply List.ext_getElem
  · simp
  · intro i h1 h2
    simp only [List.getElem_map, List.getElem_range, List.getElem_rotate, List.length_range]
    congr 1
    omega

/-- C3: starting at any valid cursor, N consecutive getModel calls return
each of the N pool indices exactly once, in configuration order rotated to
the cursor, and the (N+1)-th call returns the same index as the first. -/
theorem pool_roundrobin (n c : Nat) (_hn : 0 < n) (hc : c < n) :
    (nextKeys n c n).Perm (List.range n) ∧
      nextKeys n c n = (List.range n).rotate c ∧
      (nextKeys n c (n + 1)).getLast? = some c ∧
      (nextKeys n c (n + 1)).head? = some c := by
  have hrot : nextKeys n c n = (List.range n).rotate c := by
    rw [nextKeys_eq_map n n c hc, map_mod_range_eq_rotate n c]
  refine ⟨hrot ▸ List.rotate_perm _ _, hrot, ?_, ?_⟩
  · rw [nextKeys_eq_map n (n + 1) c hc, List.range_succ, List.map_append,
      List.getLast?_append_of_ne_nil _ (by simp)]
    simp [Nat.add_mod_right, Nat.mod_eq_of_lt hc]
  · simp [nextKeys, getModelStep]

/-- Rotating the cursor once and offsetting is offsetting one further. -/
theorem mod_rotate_add (n key i : Nat) : ((key + 1) % n + i) % n = (key + (i + 1)) % n := by
  rw [Nat.mod_add_mod]
  congr 1
  omega

/-- One loop iteration under a retryable failure rotates the pool and
recurses with one unit of fuel less. -/
theorem orchLoop_retry_step (n : Nat) (backend : Nat → Nat → BackendResult)
    (fuel attempt key cursor : Nat) (lastErr : Option String) (acc : List Nat)
    (h : retryableResult (backend attempt key) = true) :
    orchLoop n backend (fuel + 1) attempt key cursor lastErr acc =
      orchLoop n backend fuel (attempt + 1) cursor ((cursor + 1) % n)
        (some (errMsg (backend attempt key))) (key :: acc) := by
  cases hb : backend attempt key with
  | ok text => rw [hb] at h; simp [retryableResult] at h
  | err msg =>
    rw [hb] at h
    cases hcl : classify msg with
    | fatal => simp [retryableResult, hcl] at h
    | quota => simp [orchLoop, hb, hcl, getModelStep, errMsg]
    | overloaded => simp [orchLoop, hb, hcl, getModelStep, errMsg]

/-- Prepending the key just used to the trace extends the rotated key
sequence by one position. -/
theorem key_trace_step (n key f : Nat) (hk : key < n) (acc : List Nat) :
    (key :: acc).reverse ++ (List.range f).map (fun j => ((key + 1) % n + j) % n) =
      acc.reverse ++ (List.range (f + 1)).map (fun j => (key + j) % n) := by
  rw [List.reverse_cons, List.append_assoc, List.range_succ_eq_map, List.map_cons, List.map_map]
  congr 1
  rw [List.singleton_append]
  refine congrArg₂ (· :: ·) ?_ ?_
  · rw [Nat.add_zero, Nat.mod_eq_of_lt hk]
  · refine List.map_congr_left fun a _ => ?_
    simp only [Function.comp]
    exact mod_rotate_add n key a

/-- When every attempt fails retryably, the loop burns all its fuel,
visits the rotated key sequence and exhausts with the last failure. -/
theorem orchLoop_all_retry (n : Nat) (backend : Nat → Nat → BackendResult) (hn : 0 < n)
    (H : ∀ i k, retryableResult (backend i k) = true) :
    ∀ fuel attempt key cursor lastErr acc, key < n → cursor = (key + 1) % n →
      orchLoop n backend fuel attempt key cursor lastErr acc =
        { outcome := .exhausted (lastRetryMsg backend attempt key n lastErr fuel),
          attemptKeys := acc.reverse ++ (List.range fuel).map (fun j => (key + j) % n),
          finalCursor := (key + fuel + 1) % n } := by
  intro fuel
  induction fuel with
  | zero =>
    intro attempt key cursor lastErr acc hk hcur
    subst hcur
    simp [orchLoop, lastRetryMsg]
  | succ f ih =>
    intro attempt key cursor lastErr acc hk hcur
    rw [orchLoop_retry_step n backend f attempt key cursor lastErr acc (H attempt key)]
    have hk' : cursor < n := by rw [hcur]; exact Nat.mod_lt _ hn
    rw [ih (attempt + 1) cursor ((cursor + 1) % n) (some (errMsg (backend attempt key)))
      (key :: acc) hk' rfl]
    subst hcur
    simp only [RunResult.mk.injEq]
    refine ⟨?_, ?_, ?_⟩
    · congr 1
      cases f with
      | zero => simp [lastRetryMsg, Nat.mod_eq_of_lt hk]
      | succ f' =>
        simp only [lastRetryMsg]
        rw [mod_rotate_add n key f', show attempt + 1 + f' = attempt + (f' + 1) from by omega]
    · exact key_trace_step n key f hk acc
    · rw [show (key + 1) % n + f + 1 = (key + 1) % n + (f + 1) from by omega, Nat.mod_add_mod]
      congr 1
      omega

/-- C1: when every attempt ends in a retryable failure, the orchestrator
makes exactly 2 x poolSize attempts (one per rotated key) and then fails
with the exhaustion error wrapping the last recorded failure. -/
theorem retry_exhaustion (n c0 : Nat) (backend : Nat → Nat → BackendResult)
    (hn : 0 < n) (hc : c0 < n)
    (H : ∀ i k, retryableResult (backend i k) = true) :
    handleQuery n backend c0 =
        { outcome := .exhausted (errMsg (backend (n * 2 - 1) ((c0 + (n * 2 - 1)) % n))),
          attemptKeys := (List.range (n * 2)).map (fun j => (c0 + j) % n),
          finalCursor := (c0 + n * 2 + 1) % n } ∧
      (handleQuery n backend c0).attemptKeys.length = n * 2 := by
  have hq : handleQuery n backend c0 = orchLoop n backend (n * 2) 0 c0 ((c0 + 1) % n) none [] := rfl
  have hmain := orchLoop_all_retry n backend hn H (n * 2) 0 c0 ((c0 + 1) % n) none [] hc rfl
  obtain ⟨f, hf⟩ : ∃ f, n * 2 = f + 1 := ⟨n * 2 - 1, by omega⟩
  have hf' : n * 2 - 1 = f := by omega
  constructor
  · rw [hq, hmain, hf', hf]
    simp [lastRetryMsg]
  · rw [hq, hmain]
    simp

/-- Witness for `retry_exhaustion`: one credential, constant quota error. -/
theorem retry_exhaustion_witness :
    handleQuery 1 (fun _ _ => .err "429") 0 =
        { outcome := .exhausted "429", attemptKeys := [0, 0], finalCursor := 0 } ∧
      (handleQuery 1 (fun _ _ => .err "429") 0).attemptKeys.length = 1 * 2 := by
  have h := retry_exhaustion 1 0 (fun _ _ => .err "429") (by decide) (by decide)
    (fun _ _ => by show retryableResult (BackendResult.err "429") = true; decide)
  exact ⟨h.1.trans (by decide), h.2⟩

/-- A fatal failure at relative attempt j, after j retryable failures,
stops the loop at that attempt. -/
theorem orchLoop_fatal (n : Nat) (backend : Nat → Nat → BackendResult) (hn : 0 < n)
    (m : String) (hcl : classify m = .fatal) :
    ∀ j fuel attempt key cursor lastErr acc, key < n → cursor = (key + 1) % n → j < fuel →
      (∀ i, i < j → retryableResult (backend (attempt + i) ((key + i) % n)) = true) →
      backend (attempt + j) ((key + j) % n) = .err m →
      orchLoop n backend fuel attempt key cursor lastErr acc =
        { outcome := .fatal m,
          attemptKeys := acc.reverse ++ (List.range (j + 1)).map (fun i => (key + i) % n),
          finalCursor := (key + j + 1) % n } := by
  intro j
  induction j with
  | zero =>
    intro fuel attempt key cursor lastErr acc hk hcur hfu _hpre hb
    obtain ⟨f, rfl⟩ : ∃ f, fuel = f + 1 := ⟨fuel - 1, by omega⟩
    have hb' : backend attempt key = .err m := by
      simpa [Nat.mod_eq_of_lt hk] using hb
    subst hcur
    simp [orchLoop, hb', hcl, List.range_succ, Nat.mod_eq_of_lt hk]
  | succ j ih =>
    intro fuel attempt key cursor lastErr acc hk hcur hfu hpre hb
    obtain ⟨f, rfl⟩ : ∃ f, fuel = f + 1 := ⟨fuel - 1, by omega⟩
    have h0 : retryableResult (backend attempt key) = true := by
      simpa [Nat.mod_eq_of_lt hk] using hpre 0 (by omega)
    rw [orchLoop_retry_step n backend f attempt key cursor lastErr acc h0]
    subst hcur
    have hk' : (key + 1) % n < n := Nat.mod_lt _ hn
    have hpre' : ∀ i, i < j →
        retryableResult (backend (attempt + 1 + i) (((key + 1) % n + i) % n)) = true := by
      intro i hi
      have := hpre (i + 1) (by omega)
      rw [mod_rotate_add n key i, show attempt + 1 + i = attempt + (i + 1) from by omega]
      exact this
    have hb' : backend (attempt + 1 + j) (((key + 1) % n + j) % n) = .err m := by
      rw [mod_rotate_add n key j, show attempt + 1 + j = attempt + (j + 1) from by omega]
      exact hb
    rw [ih (f) (attempt + 1) ((key + 1) % n) (((key + 1) % n + 1) % n)
      (some (errMsg (backend attempt key))) (key :: acc) hk' rfl (by omega) hpre' hb']
    simp only [RunResult.mk.injEq]
    refine ⟨trivial, key_trace_step n key (j + 1) hk acc, ?_⟩
    rw [show (key + 1) % n + j + 1 = (key + 1) % n + (j + 1) from by omega, Nat.mod_add_mod]
    congr 1
    omega

/-- C5: a fatal failure aborts the retry loop at once and is propagated:
if the first j attempts fail retryably and attempt j (0-based) fails
fatally, the run ends as that fatal error after exactly j+1 attempts; in
particular j = 0 gives one attempt and only the initially consumed
credential. -/
theorem fatal_aborts (n c0 j : Nat) (backend : Nat → Nat → BackendResult) (m : String)
    (hn : 0 < n) (hc : c0 < n) (hj : j < n * 2)
    (hpre : ∀ i, i < j → retryableResult (backend i ((c0 + i) % n)) = true)
    (hb : backend j ((c0 + j) % n) = .err m)
    (hcl : classify m = .fatal) :
    handleQuery n backend c0 =
      { outcome := .fatal m,
        attemptKeys := (List.range (j + 1)).map (fun i => (c0 + i) % n),
        finalCursor := (c0 + j + 1) % n } := by
  have hq : handleQuery n backend c0 = orchLoop n backend (n * 2) 0 c0 ((c0 + 1) % n) none [] := rfl
  have hmain := orchLoop_fatal n backend hn m hcl j (n * 2) 0 c0 ((c0 + 1) % n) none [] hc rfl hj
    (by simpa using hpre) (by simpa using hb)
  rw [hq, hmain]
  simp

/-- Witness for `fatal_aborts`: one credential, fatal on the first try. -/
theorem fatal_aborts_witness :
    handleQuery 1 (fun _ _ => .err "boom") 0 =
      { outcome := .fatal "boom", attemptKeys := [0], finalCursor := 0 } := by
  have h := fatal_aborts 1 0 0 (fun _ _ => .err "boom") "boom" (by decide) (by decide)
    (by decide) (fun i hi => absurd hi (by omega))
    (by show BackendResult.err "boom" = .err "boom"; rfl) (by decide)
  exact h.trans (by decide)

/-- With two credentials, a quota error on every attempt and the fresh
process cursor 0, the rotation visits the pool indices 0,1,0,1 — that is,
the first configured credential first — and not 1,0,1,0 as the claim
(credential 2 first) would have it. -/
theorem rotation_size_two_cex :
    (handleQuery 2 (fun _ _ => .err "429") 0).attemptKeys = [0, 1, 0, 1] ∧
      [0, 1, 0, 1] ≠ [1, 0, 1, 0] := by decide

/-- C6 (amended): with a pool of size 2, a backend whose every attempt is
a quota error and the fresh-process cursor 0, the orchestrator makes
exactly 4 attempts rotating through credential indices 0,1,0,1 (the first
configured credential first) and then exhausts with the last failure. -/
theorem rotation_order_size_two (m : String) (hq : classify m = .quota) :
    handleQuery 2 (fun _ _ => .err m) 0 =
      { outcome := .exhausted m, attemptKeys := [0, 1, 0, 1], finalCursor := 1 } := by
  show orchLoop 2 (fun _ _ => BackendResult.err m) 4 0 0 1 none [] = _
  simp [orchLoop, hq, getModelStep]

/-- Witness for `rotation_order_size_two` at the error message 429. -/
theorem rotation_order_size_two_witness :
    handleQuery 2 (fun _ _ => .err "429") 0 =
      { outcome := .exhausted "429", attemptKeys := [0, 1, 0, 1], finalCursor := 1 } :=
  rotation_order_size_two "429" (by decide)

/-- Witness for `pool_roundrobin` with three credentials and cursor 1. -/
theorem pool_roundrobin_witness :
    (nextKeys 3 1 3).Perm (List.range 3) ∧
      nextKeys 3 1 3 = (List.range 3).rotate 1 ∧
      (nextKeys 3 1 (3 + 1)).getLast? = some 1 ∧
      (nextKeys 3 1 (3 + 1)).head? = some 1 :=
  pool_roundrobin 3 1 (by decide) (by decide)

/-- `String.mk` and `String.toList` are inverse on the character list. -/
theorem toList_mk (l : List Char) : (String.mk l).toList = l := rfl

/-- The character data of a built string. -/
theorem data_mk (l : List Char) : (String.mk l).data = l := rfl

/-- A list opens with three backticks iff it literally does. -/
theorem startsWithTicks_iff (l : List Char) :
    startsWithTicks l = true ↔ ∃ t, l = tick :: tick :: tick :: t := by
  rcases l with _ | ⟨a, _ | ⟨b, _ | ⟨c, t⟩⟩⟩
  · simp [startsWithTicks]
  · simp [startsWithTicks]
  · simp [startsWithTicks]
  · simp only [startsWithTicks, Bool.and_eq_true, beq_iff_eq]
    constructor
    · rintro ⟨⟨rfl, rfl⟩, rfl⟩
      exact ⟨t, rfl⟩
    · rintro ⟨t', ht⟩
      simp only [List.cons.injEq] at ht
      obtain ⟨rfl, rfl, rfl, -⟩ := ht
      exact ⟨⟨rfl, rfl⟩, rfl⟩

/-- A triple occurs somewhere iff the list decomposes around one. -/
theorem hasTriple_iff (l : List Char) :
    hasTriple l = true ↔ ∃ u v, l = u ++ tks ++ v := by
  induction l with
  | nil =>
    constructor
    · intro h
      simp [hasTriple] at h
    · rintro ⟨u, v, h⟩
      have hlen : ([] : List Char).length = (u ++ tks ++ v).length := by rw [h]
      simp [tks] at hlen
      exact absurd hlen (by omega)
  | cons c t ih =>
    simp only [hasTriple, Bool.or_eq_true]
    constructor
    · rintro (hs | ht)
      · obtain ⟨t', ht'⟩ := (startsWithTicks_iff _).mp hs
        exact ⟨[], t', by simpa [tks] using ht'⟩
      · obtain ⟨u, v, rfl⟩ := ih.mp ht
        exact ⟨c :: u, v, rfl⟩
    · rintro ⟨u, v, h⟩
      cases u with
      | nil =>
        left
        rw [startsWithTicks_iff]
        simp only [List.nil_append, tks, List.cons_append] at h
        exact ⟨v, h⟩
      | cons d u' =>
        right
        apply ih.mpr
        refine ⟨u', v, ?_⟩
        simp only [List.cons_append, List.cons.injEq] at h
        exact h.2

/-- Splitting a triple-free cons. -/
theorem hasTriple_cons_false {c : Char} {t : List Char} (h : hasTriple (c :: t) = false) :
    startsWithTicks (c :: t) = false ∧ hasTriple t = false := by
  simpa [hasTriple] using h

/-- A triple in the right part survives prepending. -/
theorem hasTriple_append_right (u v : List Char) (h : hasTriple v = true) :
    hasTriple (u ++ v) = true := by
  rw [hasTriple_iff] at h ⊢
  obtain ⟨x, y, rfl⟩ := h
  exact ⟨u ++ x, y, by simp⟩

/-- A triple in the left part survives appending. -/
theorem hasTriple_append_left (u v : List Char) (h : hasTriple u = true) :
    hasTriple (u ++ v) = true := by
  rw [hasTriple_iff] at h ⊢
  obtain ⟨x, y, rfl⟩ := h
  exact ⟨x, y ++ v, by simp⟩

/-- Triple-freeness passes to the right part of an append. -/
theorem hasTriple_suffix_false (u v : List Char) (h : hasTriple (u ++ v) = false) :
    hasTriple v = false := by
  cases hv : hasTriple v with
  | false => rfl
  | true => rw [hasTriple_append_right u v hv] at h; cases h

/-- Triple-freeness passes to the left part of an append. -/
theorem hasTriple_prefix_false (u v : List Char) (h : hasTriple (u ++ v) = false) :
    hasTriple u = false := by
  cases hu : hasTriple u with
  | false => rfl
  | true => rw [hasTriple_append_left u v hu] at h; cases h

/-- The triple pattern is a palindrome, so reversal preserves it. -/
theorem hasTriple_reverse (l : List Char) : hasTriple l.reverse = hasTriple l := by
  have key : ∀ m : List Char, hasTriple m = true → hasTriple m.reverse = true := by
    intro m hm
    rw [hasTriple_iff] at hm ⊢
    obtain ⟨u, v, rfl⟩ := hm
    refine ⟨v.reverse, u.reverse, ?_⟩
    simp [tks]
  cases hl : hasTriple l with
  | true => exact key l hl
  | false =>
    cases hr : hasTriple l.reverse with
    | false => rfl
    | true =>
      have := key l.reverse hr
      rw [List.reverse_reverse] at this
      rw [this] at hl
      cases hl

/-- Triple-freeness passes to a dropWhile suffix. -/
theorem hasTriple_dropWhile_false (p : Char → Bool) (l : List Char)
    (h : hasTriple l = false) : hasTriple (l.dropWhile p) = false := by
  apply hasTriple_suffix_false (l.takeWhile p)
  rw [List.takeWhile_append_dropWhile]
  exact h

/-- `jsTrim` never creates a triple. -/
theorem jsTrim_triple_false (l : List Char) (h : hasTriple l = false) :
    hasTriple (jsTrim l) = false := by
  unfold jsTrim
  rw [hasTriple_reverse]
  apply hasTriple_dropWhile_false
  rw [hasTriple_reverse]
  exact hasTriple_dropWhile_false _ _ h

/-- `stripTicks` is the identity on triple-free text. -/
theorem stripTicks_cons_not {c : Char} {t : List Char}
    (h : startsWithTicks (c :: t) = false) : stripTicks (c :: t) = c :: stripTicks t := by
  rcases t with _ | ⟨d, _ | ⟨e, t'⟩⟩
  · simp [stripTicks]
  · simp [stripTicks]
  · have hcond : (c == tick && d == tick && e == tick) = false := by
      simpa [startsWithTicks] using h
    simp [stripTicks, hcond]

/-- Text with no triple is returned unchanged by `stripTicks`. -/
theorem stripTicks_id : ∀ l : List Char, hasTriple l = false → stripTicks l = l := by
  intro l
  induction l with
  | nil => intro _; rfl
  | cons c t ih =>
    intro h
    obtain ⟨hs, ht⟩ := hasTriple_cons_false h
    rw [stripTicks_cons_not hs, ih ht]

/-- With no triple anywhere the fence regex cannot match. -/
theorem findFence_none_of_no_triple : ∀ l : List Char, hasTriple l = false →
    findFence l = none := by
  intro l
  induction l with
  | nil => intro _; rfl
  | cons c t ih =>
    intro h
    obtain ⟨hs, ht⟩ := hasTriple_cons_false h
    simp [findFence, hs, ih ht]

/-- Heads that are not backticks cannot open a fence. -/
theorem startsWithTicks_false_of_first {c : Char} (h : ¬c = tick) (x : List Char) :
    startsWithTicks (c :: x) = false := by
  rcases x with _ | ⟨a, _ | ⟨b, y⟩⟩
  · simp [startsWithTicks]
  · simp [startsWithTicks]
  · simp [startsWithTicks, h]

/-- A non-backtick in second position cannot be inside an opening fence. -/
theorem startsWithTicks_false_of_second {d : Char} (h : ¬d = tick) (c : Char) (x : List Char) :
    startsWithTicks (c :: d :: x) = false := by
  rcases x with _ | ⟨a, y⟩
  · simp [startsWithTicks]
  · simp [startsWithTicks, h]

/-- A non-backtick in third position cannot be inside an opening fence. -/
theorem startsWithTicks_false_of_third {e : Char} (h : ¬e = tick) (c d : Char) (x : List Char) :
    startsWithTicks (c :: d :: e :: x) = false := by
  simp [startsWithTicks, h]

/-- The output of `stripTicks` never contains a backtick triple. -/
theorem stripTicks_no_triple (l : List Char) : hasTriple (stripTicks l) = false := by
  induction l using stripTicks.induct with
  | case1 => simp [stripTicks, hasTriple]
  | case2 c => simp [stripTicks, hasTriple, startsWithTicks]
  | case3 c d => simp [stripTicks, hasTriple, startsWithTicks]
  | case4 c d e t h ih => simpa [stripTicks, h] using ih
  | case5 c d e t h ih =>
    rw [show stripTicks (c :: d :: e :: t) = c :: stripTicks (d :: e :: t) from by
      simp [stripTicks, h]]
    simp only [hasTriple, Bool.or_eq_false_iff]
    refine ⟨?_, ih⟩
    by_cases hc : c = tick
    · subst hc
      by_cases hd : d = tick
      · subst hd
        have he : ¬e = tick := by
          intro hh
          exact h (by simp [hh])
        have hde : startsWithTicks (tick :: e :: t) = false :=
          startsWithTicks_false_of_second he tick t
        rw [stripTicks_cons_not hde]
        have het : startsWithTicks (e :: t) = false := startsWithTicks_false_of_first he t
        rw [stripTicks_cons_not het]
        exact startsWithTicks_false_of_third he tick tick (stripTicks t)
      · have hde : startsWithTicks (d :: e :: t) = false :=
          startsWithTicks_false_of_first hd (e :: t)
        rw [stripTicks_cons_not hde]
        exact startsWithTicks_false_of_second hd tick (stripTicks (e :: t))
    · exact startsWithTicks_false_of_first hc _

/-- A successful lazy split yields the triple-free text before the first
triple, together with a decomposition of the input. -/
theorem splitAtTicks_some : ∀ l cap : List Char, splitAtTicks l = some cap →
    (∃ rest, l = cap ++ tks ++ rest) ∧ hasTriple cap = false := by
  intro l
  induction l with
  | nil => intro cap h; simp [splitAtTicks] at h
  | cons c t ih =>
    intro cap h
    by_cases hs : startsWithTicks (c :: t) = true
    · simp only [splitAtTicks, if_pos hs] at h
      obtain rfl : ([] : List Char) = cap := by simpa using h
      obtain ⟨t', ht'⟩ := (startsWithTicks_iff _).mp hs
      exact ⟨⟨t', by simpa [tks] using ht'⟩, rfl⟩
    · simp only [splitAtTicks, if_neg hs, Option.map_eq_some'] at h
      obtain ⟨cap', hsp, rfl⟩ := h
      obtain ⟨⟨rest, hdec⟩, hcap'⟩ := ih cap' hsp
      refine ⟨⟨rest, by simp [hdec]⟩, ?_⟩
      simp only [hasTriple, Bool.or_eq_false_iff]
      refine ⟨?_, hcap'⟩
      cases hsw : startsWithTicks (c :: cap') with
      | false => rfl
      | true =>
        exfalso
        obtain ⟨x, hx⟩ := (startsWithTicks_iff _).mp hsw
        simp only [List.cons.injEq] at hx
        obtain ⟨rfl, hcap'eq⟩ := hx
        apply hs
        apply (startsWithTicks_iff _).mpr
        refine ⟨x ++ tks ++ rest, ?_⟩
        rw [hdec, hcap'eq]
        simp [tks]

/-- The interior of a body followed by a closing triple, when the body
cannot complete a triple with two more backticks. -/
theorem startsWithTicks_carry (c : Char) (b' rest : List Char)
    (h : startsWithTicks (c :: (b' ++ (tks ++ rest))) = true) :
    startsWithTicks (c :: (b' ++ [tick, tick])) = true := by
  rcases b' with _ | ⟨d, _ | ⟨e, b''⟩⟩
  · have hc : c = tick := by simpa [startsWithTicks, tks] using h
    simp [startsWithTicks, hc]
  · have hcd : c = tick ∧ d = tick := by simpa [startsWithTicks, tks] using h
    simp [startsWithTicks, hcd.1, hcd.2]
  · have hcde : (c = tick ∧ d = tick) ∧ e = tick := by simpa [startsWithTicks] using h
    simp [startsWithTicks, hcde.1.1, hcde.1.2, hcde.2]

/-- `splitAtTicks` finds exactly the body before an explicit closing. -/
theorem splitAtTicks_append : ∀ body rest : List Char,
    hasTriple (body ++ [tick, tick]) = false →
    splitAtTicks (body ++ (tks ++ rest)) = some body := by
  intro body
  induction body with
  | nil =>
    intro rest _
    simp only [List.nil_append, tks, List.cons_append]
    simp [splitAtTicks, startsWithTicks]
  | cons c b' ih =>
    intro rest h
    have hcons : hasTriple (c :: (b' ++ [tick, tick])) = false := by simpa using h
    obtain ⟨hs2, ht2⟩ := hasTriple_cons_false hcons
    have hsw : startsWithTicks (c :: (b' ++ (tks ++ rest))) = false := by
      cases hswt : startsWithTicks (c :: (b' ++ (tks ++ rest))) with
      | false => rfl
      | true => exact absurd (startsWithTicks_carry c b' rest hswt) (by simp [hs2])
    simp only [List.cons_append]
    simp [splitAtTicks, hsw, ih rest ht2]

/-- `tailMatch` only ever returns captures produced by `splitAtTicks`. -/
theorem tailMatch_triple_free (l cap : List Char) (h : tailMatch l = some cap) :
    hasTriple cap = false := by
  rcases l with _ | ⟨c, t⟩
  · simp [tailMatch, splitAtTicks] at h
  · by_cases hc : (c == '\n') = true
    · simp only [tailMatch, if_pos hc] at h
      rcases hsp : splitAtTicks t with _ | cap'
      · rw [hsp] at h
        exact (splitAtTicks_some _ _ h).2
      · rw [hsp] at h
        have hcc : cap' = cap := by simpa using h
        subst hcc
        exact (splitAtTicks_some t _ hsp).2
    · simp only [tailMatch, if_neg hc] at h
      exact (splitAtTicks_some _ _ h).2

/-- `wordMatch` only ever returns captures produced by `splitAtTicks`. -/
theorem wordMatch_triple_free : ∀ l cap : List Char, wordMatch l = some cap →
    hasTriple cap = false := by
  intro l
  induction l with
  | nil => intro cap h; exact tailMatch_triple_free [] cap h
  | cons c t ih =>
    intro cap h
    by_cases hw : isWordChar c = true
    · simp only [wordMatch, if_pos hw] at h
      rcases hwm : wordMatch t with _ | cap'
      · rw [hwm] at h
        exact tailMatch_triple_free _ _ h
      · rw [hwm] at h
        have hcc : cap' = cap := by simpa using h
        subst hcc
        exact ih _ hwm
    · simp only [wordMatch, if_neg hw] at h
      exact tailMatch_triple_free _ _ h

/-- Every capture of the fence regex is triple-free. -/
theorem findFence_triple_free : ∀ l cap : List Char, findFence l = some cap →
    hasTriple cap = false := by
  intro l
  induction l with
  | nil => intro cap h; simp [findFence] at h
  | cons c t ih =>
    intro cap h
    by_cases hs : startsWithTicks (c :: t) = true
    · simp only [findFence, if_pos hs] at h
      rcases hwm : wordMatch (t.drop 2) with _ | cap'
      · rw [hwm] at h
        exact ih cap h
      · rw [hwm] at h
        have hcc : cap' = cap := by simpa using h
        subst hcc
        exact wordMatch_triple_free _ _ hwm
    · simp only [findFence, if_neg hs] at h
      exact ih cap h

/-- The head surviving a `dropWhile` fails the predicate. -/
theorem head?_dropWhile (p : Char → Bool) : ∀ (l : List Char) (c : Char),
    (l.dropWhile p).head? = some c → p c = false := by
  intro l
  induction l with
  | nil => intro c h; simp at h
  | cons a t ih =>
    intro c h
    by_cases hp : p a = true
    · rw [List.dropWhile_cons, if_pos hp] at h
      exact ih c h
    · rw [List.dropWhile_cons, if_neg hp] at h
      obtain rfl : a = c := by simpa using h
      simpa using hp

/-- `dropWhile` keeps a list whose head already fails the predicate. -/
theorem dropWhile_eq_self_of_head (p : Char → Bool) (l : List Char)
    (h : ∀ c, l.head? = some c → p c = false) : l.dropWhile p = l := by
  cases l with
  | nil => rfl
  | cons a t =>
    rw [List.dropWhile_cons, if_neg]
    simp [h a rfl]

/-- A nonempty `dropWhile` result keeps the original last element. -/
theorem getLast?_dropWhile (p : Char → Bool) (l : List Char)
    (hne : l.dropWhile p ≠ []) : (l.dropWhile p).getLast? = l.getLast? := by
  conv_rhs => rw [← List.takeWhile_append_dropWhile (p := p) (l := l)]
  rw [List.getLast?_append_of_ne_nil _ hne]

/-- The first character of a trimmed list is never whitespace. -/
theorem jsTrim_head (l : List Char) (c : Char) (h : (jsTrim l).head? = some c) :
    isJSWhitespace c = false := by
  unfold jsTrim at h
  rw [List.head?_reverse] at h
  have hne : (l.dropWhile isJSWhitespace).reverse.dropWhile isJSWhitespace ≠ [] := by
    intro h0
    rw [h0] at h
    simp at h
  rw [getLast?_dropWhile _ _ hne, List.getLast?_reverse] at h
  exact head?_dropWhile _ _ _ h

/-- The last character of a trimmed list is never whitespace. -/
theorem jsTrim_getLast (l : List Char) (c : Char) (h : (jsTrim l).getLast? = some c) :
    isJSWhitespace c = false := by
  unfold jsTrim at h
  rw [List.getLast?_reverse] at h
  exact head?_dropWhile _ _ _ h

/-- Trimming is idempotent. -/
theorem jsTrim_idem (l : List Char) : jsTrim (jsTrim l) = jsTrim l := by
  have h1 : (jsTrim l).dropWhile isJSWhitespace = jsTrim l :=
    dropWhile_eq_self_of_head _ _ (fun c hc => jsTrim_head l c hc)
  show (((jsTrim l).dropWhile isJSWhitespace).reverse.dropWhile isJSWhitespace).reverse = jsTrim l
  rw [h1]
  have h2 : (jsTrim l).reverse.dropWhile isJSWhitespace = (jsTrim l).reverse := by
    apply dropWhile_eq_self_of_head
    intro c hc
    rw [List.head?_reverse] at hc
    exact jsTrim_getLast l c hc
  rw [h2, List.reverse_reverse]

/-- The word-tag/newline/lazy-interior part of the regex locates an
explicitly decomposed fenced block. -/
theorem wordMatch_compute : ∀ tag nl body post : List Char,
    (∀ c ∈ tag, isWordChar c = true) →
    (nl = ['\n'] ∨ (nl = [] ∧ ∀ c, body.head? = some c → isWordChar c = false ∧ ¬c = '\n')) →
    hasTriple (body ++ [tick, tick]) = false →
    body ≠ [] →
    wordMatch (tag ++ (nl ++ (body ++ (tks ++ post)))) = some body := by
  intro tag
  induction tag with
  | nil =>
    intro nl body post _ hnl hbody hne
    rcases hnl with rfl | ⟨rfl, hhead⟩
    · show wordMatch ('\n' :: (body ++ (tks ++ post))) = some body
      have hwc : isWordChar '\n' = false := by decide
      simp [wordMatch, tailMatch, hwc, splitAtTicks_append body post hbody]
    · rcases body with _ | ⟨b0, b'⟩
      · exact absurd rfl hne
      · have h1 := hhead b0 rfl
        show wordMatch (b0 :: (b' ++ (tks ++ post))) = some (b0 :: b')
        have hsp : splitAtTicks (b0 :: (b' ++ (tks ++ post))) = some (b0 :: b') := by
          simpa using splitAtTicks_append (b0 :: b') post hbody
        simp [wordMatch, tailMatch, h1.1, h1.2, hsp]
  | cons a tag' ih =>
    intro nl body post htag hnl hbody hne
    have hwa : isWordChar a = true := htag a (List.mem_cons_self a tag')
    have hih := ih nl body post (fun c hc => htag c (List.mem_cons_of_mem a hc)) hnl hbody hne
    show wordMatch (a :: (tag' ++ (nl ++ (body ++ (tks ++ post))))) = some body
    simp [wordMatch, hwa, hih]

/-- An opening fence is unaffected by truncating the tail to two chars. -/
theorem startsWithTicks_take2 (c : Char) (pre' rest : List Char)
    (h : startsWithTicks (c :: (pre' ++ rest)) = true) :
    startsWithTicks (c :: (pre' ++ rest.take 2)) = true := by
  rcases pre' with _ | ⟨d, _ | ⟨e, p''⟩⟩
  · rcases rest with _ | ⟨r1, _ | ⟨r2, r'⟩⟩
    · simp [startsWithTicks] at h
    · simp [startsWithTicks] at h
    · simp [startsWithTicks, List.take] at h ⊢
      exact h
  · rcases rest with _ | ⟨r1, r'⟩
    · simp [startsWithTicks] at h
    · simp [startsWithTicks, List.take] at h ⊢
      exact h
  · simp [startsWithTicks] at h ⊢
    exact h

/-- The regex scans past a region in which no fence can open. -/
theorem findFence_skip : ∀ pre rest : List Char,
    hasTriple (pre ++ rest.take 2) = false →
    findFence (pre ++ rest) = findFence rest := by
  intro pre
  induction pre with
  | nil => intro rest _; simp
  | cons c pre' ih =>
    intro rest h
    have hcons : hasTriple (c :: (pre' ++ rest.take 2)) = false := by simpa using h
    obtain ⟨hs2, ht2⟩ := hasTriple_cons_false hcons
    have hsw : startsWithTicks (c :: (pre' ++ rest)) = false := by
      cases hswt : startsWithTicks (c :: (pre' ++ rest)) with
      | false => rfl
      | true => exact absurd (startsWithTicks_take2 c pre' rest hswt) (by simp [hs2])
    show findFence (c :: (pre' ++ rest)) = findFence rest
    rw [show findFence (c :: (pre' ++ rest)) = findFence (pre' ++ rest) from by
      simp [findFence, hsw]]
    exact ih rest ht2

/-- C10: the code field of every normalizer output contains no backtick
triple and carries no leading or trailing whitespace. -/
theorem normalize_output_clean (s : String) :
    hasTriple (formatResponse s).code.toList = false ∧
      (∀ c, (formatResponse s).code.toList.head? = some c → isJSWhitespace c = false) ∧
      (∀ c, (formatResponse s).code.toList.getLast? = some c → isJSWhitespace c = false) := by
  have main : ∀ X : List Char, hasTriple X = false →
      hasTriple (jsTrim X) = false ∧
        (∀ c, (jsTrim X).head? = some c → isJSWhitespace c = false) ∧
        (∀ c, (jsTrim X).getLast? = some c → isJSWhitespace c = false) :=
    fun X hX =>
      ⟨jsTrim_triple_false X hX, fun c hc => jsTrim_head X c hc,
        fun c hc => jsTrim_getLast X c hc⟩
  rcases hff : findFence s.toList with _ | cap
  · have hffd : findFence s.data = none := hff
    have h := main (stripTicks s.data) (stripTicks_no_triple s.data)
    simpa [formatResponse, hffd, toList_mk, data_mk] using h
  · have hffd : findFence s.data = some cap := hff
    by_cases hemp : cap = []
    · have h := main (stripTicks s.data) (stripTicks_no_triple s.data)
      simpa [formatResponse, hffd, hemp, toList_mk, data_mk] using h
    · have h := main cap (findFence_triple_free s.toList cap hff)
      simpa [formatResponse, hffd, hemp, toList_mk, data_mk] using h

/-- Witness for `normalize_output_clean`: on a padded two-letter input the
output is triple-free and its edge characters are non-whitespace. -/
theorem normalize_output_clean_witness :
    hasTriple (formatResponse " ab ").code.toList = false ∧
      isJSWhitespace 'a' = false ∧ isJSWhitespace 'b' = false :=
  ⟨(normalize_output_clean " ab ").1,
    (normalize_output_clean " ab ").2.1 'a' (by decide),
    (normalize_output_clean " ab ").2.2 'b' (by decide)⟩

/-- C8: on input with no backtick triple the normalizer is idempotent on
its own output. -/
theorem normalize_idem_on_clean (x : String) (h : hasTriple x.toList = false) :
    formatResponse ((formatResponse x).code) = formatResponse x := by
  have hst : stripTicks x.data = x.data := stripTicks_id _ h
  have hff : findFence x.data = none := findFence_none_of_no_triple _ h
  have h1 : formatResponse x = { code := String.mk (jsTrim x.toList) } := by
    simp [formatResponse, hff, hst]
  rw [h1]
  have htr : hasTriple (jsTrim x.data) = false := jsTrim_triple_false _ h
  have hff2 : findFence (jsTrim x.data) = none := findFence_none_of_no_triple _ htr
  simp [formatResponse, hff2, toList_mk, data_mk, stripTicks_id _ htr, jsTrim_idem]

/-- Witness for `normalize_idem_on_clean` on a plain padded string. -/
theorem normalize_idem_on_clean_witness :
    hasTriple "  hello  ".toList = false ∧
      formatResponse ((formatResponse "  hello  ").code) = formatResponse "  hello  " :=
  ⟨by decide, normalize_idem_on_clean "  hello  " (by decide)⟩

/-- The input a-then-six-backticks contains a fenced block with empty
interior; the claimed normalizer returns the empty trimmed interior, but
the code (whose truthiness test rejects an empty capture) falls back to
stripping, returning a. -/
theorem normalize_claim_cex :
    (formatResponse "a``````").code = "a" ∧
      (claimedNormalize "a``````").code = "" ∧
      formatResponse "a``````" ≠ claimedNormalize "a``````" := by
  refine ⟨?_, ?_, ?_⟩ <;> decide

/-- C2 (amended): on any input decomposing as text that cannot open a
fence, an opening triple, a maximal word-character language tag, an
optional newline, a non-empty triple-free interior, a closing triple and
arbitrary tail, the normalizer returns exactly the trimmed interior of
that first fenced block; and whenever the fence regex does not match, it
returns the input with all backtick triples stripped, trimmed.  Both
branches are total functions of the input. -/
theorem normalize_spec :
    (∀ pre tag nl body post : List Char,
        hasTriple (pre ++ [tick, tick]) = false →
        (∀ c ∈ tag, isWordChar c = true) →
        (nl = ['\n'] ∨ (nl = [] ∧ ∀ c, body.head? = some c → isWordChar c = false ∧ ¬c = '\n')) →
        hasTriple (body ++ [tick, tick]) = false →
        body ≠ [] →
        formatResponse (String.mk (pre ++ (tks ++ (tag ++ (nl ++ (body ++ (tks ++ post))))))) =
          { code := String.mk (jsTrim body) }) ∧
      (∀ s : String, findFence s.toList = none →
        formatResponse s = { code := String.mk (jsTrim (stripTicks s.toList)) }) ∧
      (∀ s : String, findFence s.toList = some [] →
        formatResponse s = { code := String.mk (jsTrim (stripTicks s.toList)) }) := by
  refine ⟨?_, ?_, ?_⟩
  · intro pre tag nl body post hpre htag hnl hbody hne
    have hskip : findFence (pre ++ (tks ++ (tag ++ (nl ++ (body ++ (tks ++ post)))))) =
        findFence (tks ++ (tag ++ (nl ++ (body ++ (tks ++ post))))) := by
      apply findFence_skip
      rw [show (tks ++ (tag ++ (nl ++ (body ++ (tks ++ post))))).take 2 = [tick, tick] from by
        simp [tks, List.take]]
      exact hpre
    have hwm := wordMatch_compute tag nl body post htag hnl hbody hne
    have hfence : findFence (tks ++ (tag ++ (nl ++ (body ++ (tks ++ post))))) = some body := by
      show findFence (tick :: tick :: tick :: (tag ++ (nl ++ (body ++ (tks ++ post))))) =
        some body
      simp [findFence, startsWithTicks, List.drop, hwm]
    have hemp : body.isEmpty = false := by
      cases body with
      | nil => exact absurd rfl hne
      | cons b0 b' => rfl
    have hfm : findFence
        (pre ++ (tks ++ (tag ++ (nl ++ (body ++ (tks ++ post)))))) = some body := by
      rw [hskip]
      exact hfence
    simp [formatResponse, hfm, hemp, hne, toList_mk, data_mk]
  · intro s hs
    have hsd : findFence s.data = none := hs
    simp [formatResponse, hsd]
  · intro s hs
    have hsd : findFence s.data = some [] := hs
    simp [formatResponse, hsd]

/-- Witness for `normalize_spec`: a fenced js block inside padding, a
fence-free string, and an empty-capture fence that falls back. -/
theorem normalize_spec_witness :
    formatResponse (String.mk
        (['x'] ++ (tks ++ (['j', 's'] ++ (['\n'] ++ ("code".toList ++ (tks ++ ['y']))))))) =
        { code := String.mk (jsTrim "code".toList) } ∧
      formatResponse "abc" = { code := String.mk (jsTrim (stripTicks "abc".toList)) } ∧
      formatResponse "``````" = { code := String.mk (jsTrim (stripTicks "``````".toList)) } := by
  refine ⟨?_, ?_, ?_⟩
  · exact normalize_spec.1 ['x'] ['j', 's'] ['\n'] "code".toList ['y'] (by decide) (by decide)
      (Or.inl rfl) (by decide) (by decide)
  · exact normalize_spec.2.1 "abc" (by decide)
  · exact normalize_spec.2.2 "``````" (by decide)

end Gateway
